import Mathlib

/-!
Shallow embedding of the roulette predictor (`src/testRou.py`, whose helper
functions `wheel_sequence`, `index_on_wheel`, `distance_clockwise`,
`distance_anticlockwise` and `get_spin_direction` coincide with those of
`src/roulette.py`).  Python `Counter` objects are modelled as insertion-ordered
association lists with rational weights; `float` weights become `ℚ`.
-/

namespace Roulette

attribute [local semireducible] Rat.mul Rat.add Rat.sub Rat.inv Rat.ofScientific

/-- The fixed physical wheel ordering (`wheel_sequence` in both source files). -/
def wheel_sequence : List ℕ :=
  [0, 32, 15, 19, 4, 21, 2, 25, 17, 34,
   6, 27, 13, 36, 11, 30, 8, 23, 10, 5,
   24, 16, 33, 1, 20, 14, 31, 9, 22, 18,
   29, 7, 28, 12, 35, 3, 26]

/-- The eight wheel zones (`wheel_zones` in `testRou.py`), in order; zone ids
are 1-based, matching `enumerate(wheel_zones, 1)`. -/
def wheel_zones : List (List ℕ) :=
  [[0, 32, 15, 19, 4],
   [21, 2, 25, 17, 34],
   [6, 27, 13, 36, 11],
   [30, 8, 23, 10, 5],
   [24, 16, 33, 1, 20],
   [14, 31, 9, 22, 18],
   [29, 7, 28, 12, 35],
   [3, 26]]

/-- `index_on_wheel`: position of a number in the fixed wheel ordering
(`wheel_sequence.index(number)`). -/
def index_on_wheel (number : ℕ) : ℕ :=
  wheel_sequence.indexOf number

/-- `distance_clockwise(from_num, to_num) = (to_idx - from_idx) % len(wheel_sequence)`;
Python `%` on a positive modulus is the nonnegative remainder, i.e. `Int.emod`. -/
def distance_clockwise (from_num to_num : ℕ) : ℕ :=
  (((index_on_wheel to_num : ℤ) - (index_on_wheel from_num : ℤ)) %
    (wheel_sequence.length : ℤ)).toNat

/-- `distance_anticlockwise(from_num, to_num) = (from_idx - to_idx) % len(wheel_sequence)`. -/
def distance_anticlockwise (from_num to_num : ℕ) : ℕ :=
  (((index_on_wheel from_num : ℤ) - (index_on_wheel to_num : ℤ)) %
    (wheel_sequence.length : ℤ)).toNat

/-- Spin direction, alternating with the 1-based spin index. -/
inductive Direction where
  | clockwise
  | anticlockwise
deriving DecidableEq, Repr

/-- `get_spin_direction(spin_number)`: clockwise when the spin index is odd. -/
def get_spin_direction (spin_number : ℕ) : Direction :=
  if spin_number % 2 = 1 then Direction.clockwise else Direction.anticlockwise

/-- Colors returned by `get_color`. -/
inductive Color where
  | green
  | red
  | black
  | unknown
deriving DecidableEq, Repr

/-- The `red_numbers` set of `get_color`. -/
def red_numbers : List ℕ :=
  [1, 3, 5, 7, 9, 12, 14, 16, 18, 19, 21, 23, 25, 27, 30, 32, 34, 36]

/-- The `black_numbers` set of `get_color`. -/
def black_numbers : List ℕ :=
  [2, 4, 6, 8, 10, 11, 13, 15, 17, 20, 22, 24, 26, 28, 29, 31, 33, 35]

/-- `get_color(number)`. -/
def get_color (number : ℕ) : Color :=
  if number = 0 then Color.green
  else if number ∈ red_numbers then Color.red
  else if number ∈ black_numbers then Color.black
  else Color.unknown

/-- Search loop of `find_zone`: first zone (1-based) containing the number. -/
def findZoneGo (number : ℕ) : ℕ → List (List ℕ) → Option ℕ
  | _, [] => none
  | idx, z :: rest => if number ∈ z then some idx else findZoneGo number (idx + 1) rest

/-- `find_zone(number)`: 1-based id of the zone containing the number, else `None`. -/
def find_zone (number : ℕ) : Option ℕ :=
  findZoneGo number 1 wheel_zones

/-- The pruning threshold `1e-6` used in `_apply_decay`. -/
def pruneEpsilon : ℚ := 1 / 1000000

/-- Weight of a key in a `Counter`, `0` when absent. -/
def tblGet {K : Type} [DecidableEq K] : List (K × ℚ) → K → ℚ
  | [], _ => 0
  | p :: t, k => if p.1 = k then p.2 else tblGet t k

/-- `counter[key] += a`: update the (unique) existing entry in place, else
append a fresh entry at the end (dict insertion order). -/
def tblIncr {K : Type} [DecidableEq K] : List (K × ℚ) → K → ℚ → List (K × ℚ)
  | [], k, a => [(k, a)]
  | p :: t, k, a => if p.1 = k then (p.1, p.2 + a) :: t else p :: tblIncr t k a

/-- One decay pass of `_apply_decay` over a single table: multiply every weight
by the decay factor and delete entries that fall below `1e-6`. -/
def tblDecay {K : Type} (d : ℚ) : List (K × ℚ) → List (K × ℚ)
  | [] => []
  | p :: t =>
    if p.2 * d < pruneEpsilon then tblDecay d t else (p.1, p.2 * d) :: tblDecay d t

/-- `sum(counter.values())`. -/
def tblTotal {K : Type} (t : List (K × ℚ)) : ℚ :=
  (t.map (fun p => p.2)).sum

/-- Insert an entry into a weight-descending list, after all entries of equal
or larger weight (the stable tie-break of `sorted(..., reverse=True)` /
`heapq.nlargest`, which keep insertion order among equal weights). -/
def insertDesc {K : Type} (p : K × ℚ) : List (K × ℚ) → List (K × ℚ)
  | [] => [p]
  | q :: rest => if q.2 < p.2 then p :: q :: rest else q :: insertDesc p rest

/-- Stable sort by weight, descending. -/
def sortDesc {K : Type} (t : List (K × ℚ)) : List (K × ℚ) :=
  t.foldl (fun acc p => insertDesc p acc) []

/-- `counter.most_common(n)`: the `n` heaviest entries, weight-descending,
ties broken by insertion order. -/
def most_common {K : Type} (t : List (K × ℚ)) (n : ℕ) : List (K × ℚ) :=
  (sortDesc t).take n

/-- Lookup in the dealer-keyed table of tables (`dealer in dzw` / `dzw[dealer]`). -/
def dzwFind : List (String × List (ℕ × ℚ)) → String → Option (List (ℕ × ℚ))
  | [], _ => none
  | p :: m, dealer => if p.1 = dealer then some p.2 else dzwFind m dealer

/-- `self.dealer_zone_weights[dealer][zone] += 1` on a `defaultdict(Counter)`:
update the dealer's table if present, else append a fresh one at the end. -/
def dzwIncr : List (String × List (ℕ × ℚ)) → String → ℕ → List (String × List (ℕ × ℚ))
  | [], dealer, zone => [(dealer, tblIncr [] zone 1)]
  | p :: m, dealer, zone =>
    if p.1 = dealer then (p.1, tblIncr p.2 zone 1) :: m else p :: dzwIncr m dealer zone

/-- The dealer loop of `_apply_decay`: decay each dealer's table and delete
dealers whose table becomes empty. -/
def dzwDecay (d : ℚ) : List (String × List (ℕ × ℚ)) → List (String × List (ℕ × ℚ))
  | [] => []
  | p :: m =>
    if tblDecay d p.2 = [] then dzwDecay d m else (p.1, tblDecay d p.2) :: dzwDecay d m

/-- `deque(maxlen=n).append(x)`: drop the oldest element when full. -/
def dequeAppend {A : Type} (maxlen : ℕ) (q : List A) (x : A) : List A :=
  if maxlen = 0 then [] else if maxlen ≤ q.length then q.tail ++ [x] else q ++ [x]

/-- The state of `RoulettePredictor` (`testRou.py`).  The `distance_freq` dict
keyed by direction becomes the two fields `distClockwise`/`distAnticlockwise`. -/
structure Predictor where
  spins : List (ℕ × Option String)
  maxHistory : ℕ
  decay : ℚ
  distClockwise : List (ℕ × ℚ)
  distAnticlockwise : List (ℕ × ℚ)
  numberWeights : List (ℕ × ℚ)
  colorWeights : List (Color × ℚ)
  zoneWeights : List (ℕ × ℚ)
  dealerZoneWeights : List (String × List (ℕ × ℚ))
  spinHistory : List (ℕ × Option String)
deriving DecidableEq, Repr

/-- `RoulettePredictor.__init__(max_history=200, decay=0.9)`: all tables empty. -/
def initPredictor (max_history : ℕ) (decay : ℚ) : Predictor :=
  { spins := []
    maxHistory := max_history
    decay := decay
    distClockwise := []
    distAnticlockwise := []
    numberWeights := []
    colorWeights := []
    zoneWeights := []
    dealerZoneWeights := []
    spinHistory := [] }

/-- `_apply_decay`: one synchronized decay step over every owned table. -/
def applyDecay (s : Predictor) : Predictor :=
  { s with
    distClockwise := tblDecay s.decay s.distClockwise
    distAnticlockwise := tblDecay s.decay s.distAnticlockwise
    numberWeights := tblDecay s.decay s.numberWeights
    colorWeights := tblDecay s.decay s.colorWeights
    zoneWeights := tblDecay s.decay s.zoneWeights
    dealerZoneWeights := dzwDecay s.decay s.dealerZoneWeights }

/-- `add_spin(number, dealer=None)`.  The method mutates disjoint fields in
sequence; each field below is the value the corresponding attribute holds when
the method returns.  `spins[-2]` (read after the append) is
`newSpins[len(newSpins)-2]`; Python truthiness of `dealer` excludes both `None`
and the empty string; the distance update runs only when `len(spins) > 1`,
branching on the direction of the new spin's 1-based index. -/
def add_spin (s0 : Predictor) (number : ℕ) (dealer : Option String) : Predictor :=
  let s := applyDecay s0
  let spin_number := s.spins.length + 1
  let newSpins := s.spins ++ [(number, dealer)]
  let zone := find_zone number
  let direction := get_spin_direction spin_number
  { spins := newSpins
    maxHistory := s.maxHistory
    decay := s.decay
    numberWeights := tblIncr s.numberWeights number 1
    colorWeights := tblIncr s.colorWeights (get_color number) 1
    zoneWeights :=
      match zone with
      | some z => tblIncr s.zoneWeights z 1
      | none => s.zoneWeights
    dealerZoneWeights :=
      match zone, dealer with
      | some z, some dname =>
        if dname = "" then s.dealerZoneWeights else dzwIncr s.dealerZoneWeights dname z
      | _, _ => s.dealerZoneWeights
    distClockwise :=
      if 1 < newSpins.length ∧ direction = Direction.clockwise then
        tblIncr s.distClockwise
          (distance_clockwise (newSpins.getD (newSpins.length - 2) (0, none)).1 number) 1
      else s.distClockwise
    distAnticlockwise :=
      if 1 < newSpins.length ∧ direction = Direction.anticlockwise then
        tblIncr s.distAnticlockwise
          (distance_anticlockwise (newSpins.getD (newSpins.length - 2) (0, none)).1 number) 1
      else s.distAnticlockwise
    spinHistory := dequeAppend s.maxHistory s.spinHistory (number, dealer) }

/-- Structured outcome of `predict_next_top_n`: the two early-return error
strings become the first two constructors, and the assembled output's data
(the values interpolated into the report text) the third. -/
inductive PredictResult where
  | noHistory
  | noDistanceData (direction : Direction)
  | report (spin_number : ℕ) (direction : Direction)
      (dist_predictions : List (ℕ × ℕ × ℚ))
      (hot_numbers : List (ℕ × ℚ)) (hot_numbers_total : ℚ)
      (hot_colors : List (Color × ℚ))
      (hot_zones : List (ℕ × ℚ)) (total_zones : ℚ)
      (dealer_zone_info : Option (List (ℕ × ℚ)))
deriving DecidableEq, Repr

/-- `predict_next_top_n(n=15, dealer=None)`, following the source line by
line: direction of the upcoming spin, the two guard returns, the projected
distance-based candidates, and the independently ranked number / color / zone
/ dealer-zone data.  `dealer_zone_info` mirrors the Python local of the same
name (`None` when `dealer` is falsy, `[]` for an unseen dealer). -/
def predict_next_top_n (s : Predictor) (n : ℕ) (dealer : Option String) : PredictResult :=
  let spin_number := s.spins.length + 1
  let direction := get_spin_direction spin_number
  if s.spins = [] then PredictResult.noHistory
  else
    let dtbl :=
      match direction with
      | Direction.clockwise => s.distClockwise
      | Direction.anticlockwise => s.distAnticlockwise
    if dtbl = [] then PredictResult.noDistanceData direction
    else
      let total_dist_counts := tblTotal dtbl
      let last_number := (s.spins.getLastD (0, none)).1
      let last_index := index_on_wheel last_number
      let common_distances := most_common dtbl n
      let dist_predictions := common_distances.map (fun p =>
        let prob := p.2 / total_dist_counts
        let predicted_index : ℕ :=
          match direction with
          | Direction.clockwise =>
            (((last_index : ℤ) + (p.1 : ℤ)) % (wheel_sequence.length : ℤ)).toNat
          | Direction.anticlockwise =>
            (((last_index : ℤ) - (p.1 : ℤ)) % (wheel_sequence.length : ℤ)).toNat
        (wheel_sequence.getD predicted_index 0, p.1, prob))
      let hot_numbers_total := tblTotal s.numberWeights
      let hot_numbers := most_common s.numberWeights 10
      let total_colors := tblTotal s.colorWeights
      let hot_colors := s.colorWeights.map (fun p => (p.1, p.2 / total_colors))
      let total_zones := tblTotal s.zoneWeights
      let hot_zones := most_common s.zoneWeights 5
      let dealer_zone_info : Option (List (ℕ × ℚ)) :=
        match dealer with
        | some dname =>
          if dname = "" then none
          else
            match dzwFind s.dealerZoneWeights dname with
            | some t => some (most_common t 5)
            | none => some []
        | none => none
      PredictResult.report spin_number direction dist_predictions
        hot_numbers hot_numbers_total hot_colors hot_zones total_zones dealer_zone_info

/-- `predict_next_top_n` in state-passing form.  The method body assigns to no
attribute of `self`, and its only access to the `defaultdict` of dealer tables
is guarded by a membership test, so the state it leaves behind is the state it
was called in. -/
def predictStep (s : Predictor) (n : ℕ) (dealer : Option String) :
    PredictResult × Predictor :=
  (predict_next_top_n s n dealer, s)

/-- Fold a list of `(number, dealer)` observations through `add_spin`. -/
def runSpins (s : Predictor) (l : List (ℕ × Option String)) : Predictor :=
  l.foldl (fun acc p => add_spin acc p.1 p.2) s

/-- Keys of a weighted table, in order. -/
def tblKeys {K : Type} (t : List (K × ℚ)) : List K :=
  t.map Prod.fst

/-- Dealer keys of the dealer table-of-tables, in order. -/
def dzwKeys (m : List (String × List (ℕ × ℚ))) : List String :=
  m.map Prod.fst

/-- The spec's per-table decay contract: every surviving entry is a pre-decay
entry with its weight multiplied by the factor, and no surviving weight is
below the pruning threshold. -/
def decayTableSpec {K : Type} (d : ℚ) (pre post : List (K × ℚ)) : Prop :=
  ∀ k w, (k, w) ∈ post → (∃ w0, (k, w0) ∈ pre ∧ w = w0 * d) ∧ pruneEpsilon ≤ w

/-- Closed-form weighted-count law: the weight position `p` carries after the
whole list of spins is recorded, each observation entering at `1` and decaying
once per subsequent spin (spin `i` of `N`, 1-based, contributes `d ^ (N - i)`). -/
def weightLaw (d : ℚ) : List ℕ → ℕ → ℚ
  | [], _ => 0
  | q :: rest, p => (if q = p then d ^ rest.length else 0) + weightLaw d rest p

/-- Dealer name used in concrete scenarios. -/
def dealerA : String := "A"

/-- Second dealer name used in concrete scenarios. -/
def dealerB : String := "B"

/-- Third dealer name used in concrete scenarios. -/
def dealerX : String := "X"

/-- Predictor state after recording spins `0, 32` with decay factor `1`. -/
def statePredictor2 : Predictor :=
  runSpins (initPredictor 200 1) [(0, none), (32, none)]

/-- Predictor state after recording spins `0, 32, 15` with decay factor `1`. -/
def statePredictor3 : Predictor :=
  runSpins (initPredictor 200 1) [(0, none), (32, none), (15, none)]

/-- Predictor with decay `1/2` after one spin recorded for dealer `"A"`. -/
def sDealer : Predictor :=
  add_spin (initPredictor 200 (1 / 2)) 0 (some dealerA)

/-- `sDealer` after 20 further dealerless spins: enough decay steps to push
dealer `"A"`'s zone weight `(1/2)^20` below `1e-6`. -/
def sDealerGone : Predictor :=
  runSpins sDealer (List.replicate 20 (0, none))

/-- Predictor with decay `1/2` after one spin recorded for dealer `"B"`. -/
def sB1 : Predictor :=
  add_spin (initPredictor 200 (1 / 2)) 0 (some dealerB)

/-- `sB1` after one further spin recorded for dealer `"A"`. -/
def sB2 : Predictor :=
  add_spin sB1 0 (some dealerA)

/-- Predictor with decay `9/10` after spins `17` (dealer `"A"`) and `0`. -/
def sEx : Predictor :=
  runSpins (initPredictor 200 (9 / 10)) [(17, some dealerA), (0, none)]

theorem pruneEpsilon_pos : 0 < pruneEpsilon := by norm_num [pruneEpsilon]

theorem tblGet_incr {K : Type} [DecidableEq K] (t : List (K × ℚ)) (k : K) (a : ℚ) (p : K) :
    tblGet (tblIncr t k a) p = tblGet t p + if k = p then a else 0 := by
  induction t with
  | nil =>
    by_cases h : k = p
    · simp [tblIncr, tblGet, h]
    · have h2 : ¬ p = k := fun hc => h hc.symm
      simp [tblIncr, tblGet, h, h2]
  | cons q t ih =>
    by_cases h : q.1 = k
    · by_cases hp : q.1 = p
      · have hkp : k = p := h ▸ hp
        simp [tblIncr, tblGet, h, hp, hkp]
      · have hkp : ¬ k = p := fun hc => hp (h.trans hc)
        simp [tblIncr, tblGet, h, hp, hkp]
    · by_cases hp : q.1 = p
      · have hkp : ¬ k = p := fun hc => h (hc ▸ hp)
        have hpk : ¬ p = k := fun hc => hkp hc.symm
        simp [tblIncr, tblGet, h, hp, hkp, hpk]
      · simp [tblIncr, tblGet, h, hp, ih]

theorem tblKeys_tblDecay_sublist {K : Type} (d : ℚ) (t : List (K × ℚ)) :
    List.Sublist (tblKeys (tblDecay d t)) (tblKeys t) := by
  induction t with
  | nil => simp [tblDecay, tblKeys]
  | cons q t ih =>
    by_cases h : q.2 * d < pruneEpsilon
    · simpa [tblDecay, tblKeys, h] using ih.cons q.1
    · simpa [tblDecay, tblKeys, h] using ih.cons₂ q.1

theorem tblGet_eq_zero_of_not_mem {K : Type} [DecidableEq K] (t : List (K × ℚ)) (p : K)
    (h : p ∉ tblKeys t) : tblGet t p = 0 := by
  induction t with
  | nil => rfl
  | cons q t ih =>
    rw [tblKeys, List.map_cons, List.mem_cons] at h
    push_neg at h
    have hq : ¬ q.1 = p := fun hc => h.1 hc.symm
    rw [tblGet, if_neg hq]
    exact ih h.2

theorem tblGet_decay {K : Type} [DecidableEq K] (d : ℚ) (t : List (K × ℚ)) (p : K)
    (h : (tblKeys t).Nodup) :
    tblGet (tblDecay d t) p =
      if tblGet t p * d < pruneEpsilon then 0 else tblGet t p * d := by
  induction t with
  | nil =>
    have : (0 : ℚ) * d < pruneEpsilon := by
      rw [zero_mul]; exact pruneEpsilon_pos
    simp [tblDecay, tblGet, this]
  | cons q t ih =>
    rw [tblKeys, List.map_cons, List.nodup_cons] at h
    obtain ⟨hhead, htail⟩ := h
    have hnd : (tblKeys t).Nodup := htail
    by_cases hp : q.1 = p
    · have hnot : p ∉ tblKeys t := hp ▸ hhead
      have hd0 : tblGet (tblDecay d t) p = 0 :=
        tblGet_eq_zero_of_not_mem _ p
          (fun hc => hnot ((tblKeys_tblDecay_sublist d t).mem hc))
      by_cases hcut : q.2 * d < pruneEpsilon
      · rw [tblDecay, if_pos hcut, tblGet, if_pos hp, if_pos hcut, hd0]
      · rw [tblDecay, if_neg hcut, tblGet, if_pos hp, tblGet, if_pos hp, if_neg hcut]
    · by_cases hcut : q.2 * d < pruneEpsilon
      · rw [tblDecay, if_pos hcut, tblGet, if_neg hp]
        exact ih hnd
      · rw [tblDecay, if_neg hcut, tblGet, if_neg hp, tblGet, if_neg hp]
        exact ih hnd

theorem tblKeys_tblIncr_mem {K : Type} [DecidableEq K] (t : List (K × ℚ)) (k : K) (a : ℚ)
    (x : K) (h : x ∈ tblKeys (tblIncr t k a)) : x ∈ tblKeys t ∨ x = k := by
  induction t with
  | nil =>
    rw [tblIncr, tblKeys, List.map_singleton, List.mem_singleton] at h
    exact Or.inr h
  | cons q t ih =>
    by_cases hq : q.1 = k
    · rw [tblIncr, if_pos hq, tblKeys, List.map_cons, List.mem_cons] at h
      rw [tblKeys, List.map_cons, List.mem_cons]
      tauto
    · rw [tblIncr, if_neg hq, tblKeys, List.map_cons, List.mem_cons] at h
      rw [tblKeys, List.map_cons, List.mem_cons]
      rcases h with h | h
      · exact Or.inl (Or.inl h)
      · rcases ih h with h2 | h2
        · exact Or.inl (Or.inr h2)
        · exact Or.inr h2

theorem tblIncr_nodup {K : Type} [DecidableEq K] (t : List (K × ℚ)) (k : K) (a : ℚ)
    (h : (tblKeys t).Nodup) : (tblKeys (tblIncr t k a)).Nodup := by
  induction t with
  | nil => simp [tblIncr, tblKeys]
  | cons q t ih =>
    rw [tblKeys, List.map_cons, List.nodup_cons] at h
    obtain ⟨hhead, htail⟩ := h
    by_cases hq : q.1 = k
    · rw [tblIncr, if_pos hq, tblKeys, List.map_cons, List.nodup_cons]
      exact ⟨hhead, htail⟩
    · have hnot : q.1 ∉ tblKeys (tblIncr t k a) := by
        intro hc
        rcases tblKeys_tblIncr_mem t k a q.1 hc with hc2 | hc2
        · exact hhead hc2
        · exact hq hc2
      rw [tblIncr, if_neg hq, tblKeys, List.map_cons, List.nodup_cons]
      exact ⟨hnot, ih htail⟩

theorem tblDecay_nodup {K : Type} (d : ℚ) (t : List (K × ℚ))
    (h : (tblKeys t).Nodup) : (tblKeys (tblDecay d t)).Nodup :=
  h.sublist (tblKeys_tblDecay_sublist d t)

theorem add_spin_numberWeights (s : Predictor) (num : ℕ) (dlr : Option String) :
    (add_spin s num dlr).numberWeights = tblIncr (tblDecay s.decay s.numberWeights) num 1 :=
  rfl

theorem add_spin_decay (s : Predictor) (num : ℕ) (dlr : Option String) :
    (add_spin s num dlr).decay = s.decay :=
  rfl

theorem runSpins_append (s : Predictor) (l1 l2 : List (ℕ × Option String)) :
    runSpins s (l1 ++ l2) = runSpins (runSpins s l1) l2 :=
  List.foldl_append _ _ l1 l2

theorem runSpins_decay (s : Predictor) (l : List (ℕ × Option String)) :
    (runSpins s l).decay = s.decay := by
  induction l generalizing s with
  | nil => rfl
  | cons p l ih => simpa [runSpins, List.foldl_cons] using ih (add_spin s p.1 p.2)

theorem runSpins_numberWeights_nodup (s : Predictor) (l : List (ℕ × Option String))
    (h : (tblKeys s.numberWeights).Nodup) :
    (tblKeys (runSpins s l).numberWeights).Nodup := by
  induction l generalizing s with
  | nil => exact h
  | cons p l ih =>
    have hstep : (tblKeys (add_spin s p.1 p.2).numberWeights).Nodup := by
      rw [add_spin_numberWeights]
      exact tblIncr_nodup _ _ _ (tblDecay_nodup _ _ h)
    simpa [runSpins, List.foldl_cons] using ih (add_spin s p.1 p.2) hstep

theorem weightLaw_nonneg (d : ℚ) (hd : 0 ≤ d) (l : List ℕ) (p : ℕ) :
    0 ≤ weightLaw d l p := by
  induction l with
  | nil => simp [weightLaw]
  | cons q l ih =>
    rw [weightLaw]
    have h1 : 0 ≤ (if q = p then d ^ l.length else 0) := by
      split
      · exact pow_nonneg hd _
      · exact le_refl 0
    exact add_nonneg h1 ih

theorem weightLaw_append (d : ℚ) (l : List ℕ) (a p : ℕ) :
    weightLaw d (l ++ [a]) p = d * weightLaw d l p + (if a = p then 1 else 0) := by
  induction l with
  | nil =>
    by_cases h : a = p <;> simp [weightLaw, h]
  | cons q l ih =>
    rw [List.cons_append, weightLaw, weightLaw, ih]
    have hlen : (l ++ [a]).length = l.length + 1 := by simp
    rw [hlen]
    by_cases h : q = p
    · simp [h]
      ring
    · simp [h]

theorem weightLaw_zero_or_bound (d : ℚ) (hd0 : 0 < d) (hd1 : d ≤ 1) (p : ℕ) :
    ∀ l : List ℕ, weightLaw d l p = 0 ∨ d ^ l.length ≤ weightLaw d l p * d := by
  intro l
  induction l with
  | nil => exact Or.inl rfl
  | cons q l ih =>
    by_cases h : q = p
    · right
      rw [weightLaw, if_pos h]
      have hW := weightLaw_nonneg d hd0.le l p
      have hstep : d ^ l.length * d ≤ (d ^ l.length + weightLaw d l p) * d := by
        apply mul_le_mul_of_nonneg_right _ hd0.le
        linarith
      calc d ^ (q :: l).length = d ^ l.length * d := by rw [List.length_cons, pow_succ]
        _ ≤ _ := hstep
    · rw [weightLaw, if_neg h, zero_add]
      rcases ih with h0 | hb
      · exact Or.inl h0
      · right
        have hmono : d ^ (l.length + 1) ≤ d ^ l.length :=
          pow_le_pow_of_le_one hd0.le hd1 (Nat.le_succ _)
        rw [List.length_cons]
        linarith

/-- C5: the weighted-count law for the number table.  With decay factor
`d ∈ (0,1]` and no pruning possible over the run (`pruneEpsilon ≤ d ^ N`),
after recording the dealerless spins `l` the number-table weight of each
position `p` equals the sum, over the 1-based indices `i` at which `p` was
spun, of `d ^ (N - i)`: each observation enters undecayed and is decayed once
per subsequent spin.  Instantiated in the witness at the spec's concrete
scenario (position 17, then six other positions, decay `9/10`, weight `(9/10)^6`). -/
theorem C5_weighted_count_law (d : ℚ) (mh : ℕ) (p : ℕ) (hd0 : 0 < d) (hd1 : d ≤ 1) :
    ∀ l : List ℕ, pruneEpsilon ≤ d ^ l.length →
      tblGet (runSpins (initPredictor mh d) (l.map (fun q => (q, none)))).numberWeights p
        = weightLaw d l p := by
  intro l
  induction l using List.reverseRecOn with
  | nil => intro _; rfl
  | append_singleton l a ih =>
    intro hN
    have hlen : (l ++ [a]).length = l.length + 1 := by simp
    rw [hlen] at hN
    have hmono : d ^ (l.length + 1) ≤ d ^ l.length :=
      pow_le_pow_of_le_one hd0.le hd1 (Nat.le_succ _)
    have ihl := ih (le_trans hN hmono)
    have hmap : (l ++ [a]).map (fun q => ((q : ℕ), (none : Option String))) =
        l.map (fun q => (q, none)) ++ [(a, none)] := by simp
    rw [hmap, runSpins_append]
    have hdec : (runSpins (initPredictor mh d) (l.map (fun q => (q, none)))).decay = d :=
      runSpins_decay _ _
    have hnd : (tblKeys (runSpins (initPredictor mh d)
        (l.map (fun q => (q, none)))).numberWeights).Nodup :=
      runSpins_numberWeights_nodup _ _ (by simp [initPredictor, tblKeys])
    rw [show runSpins (runSpins (initPredictor mh d) (l.map (fun q => (q, none))))
          [(a, none)] =
        add_spin (runSpins (initPredictor mh d) (l.map (fun q => (q, none)))) a none
      from rfl]
    rw [add_spin_numberWeights, hdec, tblGet_incr, tblGet_decay d _ p hnd, ihl,
      weightLaw_append]
    rcases weightLaw_zero_or_bound d hd0 hd1 p l with h0 | hb
    · rw [h0]
      have hz : (0 : ℚ) * d < pruneEpsilon := by rw [zero_mul]; exact pruneEpsilon_pos
      rw [if_pos hz]
      ring
    · have hcut : ¬ weightLaw d l p * d < pruneEpsilon :=
        not_lt.mpr (le_trans (le_trans hN hmono) hb)
      rw [if_neg hcut]
      ring

/-- Witness for C5: decay `9/10`, position `17` recorded once followed by six
spins on other positions leaves the number-table weight of `17` at `(9/10)^6`. -/
theorem C5_witness :
    tblGet (runSpins (initPredictor 200 (9 / 10))
        ([17, 0, 1, 2, 3, 4, 5].map (fun q => (q, none)))).numberWeights 17
      = (9 / 10 : ℚ) ^ 6 := by
  have h := C5_weighted_count_law (9 / 10) 200 17 (by norm_num) (by norm_num)
    [17, 0, 1, 2, 3, 4, 5] (by norm_num [pruneEpsilon])
  rw [h]
  norm_num [weightLaw]

/-- Counterexample for C1: moving from position 0 to position 32 is one step
clockwise, so the anticlockwise distance is `36`, not `1` as the claim states;
accordingly the anticlockwise table after spins `0, 32` is not `[(1, 1)]`. -/
theorem C1_counterexample :
    distance_anticlockwise 0 32 ≠ 1 ∧ statePredictor2.distAnticlockwise ≠ [(1, 1)] := by
  decide

/-- C1 (amended): with decay `1`, after `add_spin(0)` then `add_spin(32)` the
direction of spin 2 is anticlockwise, the anticlockwise table holds exactly the
one entry `anticlockwiseDistance(0,32) = 36` with count `1`, the clockwise
table is empty, and `predict_next_top_n` (spin 3, clockwise) fails with
NoDistanceData for every `n` and dealer argument. -/
theorem C1_amended_scenario (n : ℕ) (dealer : Option String) :
    get_spin_direction 2 = Direction.anticlockwise ∧
    distance_anticlockwise 0 32 = 36 ∧
    statePredictor2.distAnticlockwise = [(distance_anticlockwise 0 32, 1)] ∧
    statePredictor2.distClockwise = [] ∧
    get_spin_direction 3 = Direction.clockwise ∧
    predict_next_top_n statePredictor2 n dealer =
      PredictResult.noDistanceData Direction.clockwise :=
  ⟨rfl, by decide, by decide, by decide, rfl, rfl⟩

/-- C6: with decay `1` and spins `0, 32, 15`, spin 3 is clockwise and stores
`clockwiseDistance(32,15) = 1`; predicting spin 4 (anticlockwise) consults the
anticlockwise table, unchanged since spin 2 with its single entry `(36, 1)`,
and yields the single candidate at probability `1`, namely position 15 shifted
anticlockwise by the stored distance 36, which is position 19. -/
theorem C6_scenario :
    get_spin_direction 3 = Direction.clockwise ∧
    distance_clockwise 32 15 = 1 ∧
    statePredictor3.distClockwise = [(distance_clockwise 32 15, 1)] ∧
    statePredictor3.distAnticlockwise = [(36, 1)] ∧
    statePredictor3.distAnticlockwise = statePredictor2.distAnticlockwise ∧
    get_spin_direction 4 = Direction.anticlockwise ∧
    predict_next_top_n statePredictor3 15 none =
      PredictResult.report 4 Direction.anticlockwise
        [(19, 36, 1)]
        [(0, 1), (32, 1), (15, 1)] 3
        [(Color.green, 1 / 3), (Color.red, 1 / 3), (Color.black, 1 / 3)]
        [(1, 3)] 3 none ∧
    19 = wheel_sequence.getD ((((index_on_wheel 15 : ℤ) - 36) % 37).toNat) 0 := by
  decide

/-- C7: for wheel positions `a, b ∈ [0,36]`, the clockwise distance equals
`(37 - anticlockwise) % 37`, the clockwise distance from a position to itself
is `0`, and both distances lie in `[0,36]`. -/
theorem C7_distance_algebra (a b : ℕ) (_ha : a ≤ 36) (_hb : b ≤ 36) :
    distance_clockwise a b = (37 - distance_anticlockwise a b) % 37 ∧
    distance_clockwise a a = 0 ∧
    distance_clockwise a b ≤ 36 ∧ distance_anticlockwise a b ≤ 36 := by
  have hlen : (wheel_sequence.length : ℤ) = 37 := by norm_num [wheel_sequence]
  unfold distance_clockwise distance_anticlockwise
  rw [hlen]
  omega

/-- Witness for C7 at positions `3` and `10`. -/
theorem C7_witness :
    distance_clockwise 3 10 = (37 - distance_anticlockwise 3 10) % 37 ∧
    distance_clockwise 3 3 = 0 ∧
    distance_clockwise 3 10 ≤ 36 ∧ distance_anticlockwise 3 10 ≤ 36 :=
  C7_distance_algebra 3 10 (by norm_num) (by norm_num)

/-- C8: on a predictor with no recorded spins, `predict_next_top_n` fails with
NoHistory for every `n` and dealer argument, and leaves the state unchanged. -/
theorem C8_no_history (s : Predictor) (n : ℕ) (dealer : Option String)
    (h : s.spins = []) :
    predictStep s n dealer = (PredictResult.noHistory, s) := by
  simp [predictStep, predict_next_top_n, h]

/-- Witness for C8 on a fresh predictor. -/
theorem C8_witness :
    predictStep (initPredictor 200 (9 / 10)) 15 none =
      (PredictResult.noHistory, initPredictor 200 (9 / 10)) :=
  C8_no_history (initPredictor 200 (9 / 10)) 15 none rfl

/-- C9: `predict_next_top_n` is read-only — it leaves the state exactly as it
was, so a second call with identical arguments and no intervening `add_spin`
returns the identical report from the identical state. -/
theorem C9_read_only (s : Predictor) (n : ℕ) (dealer : Option String) :
    (predictStep s n dealer).2 = s ∧
    predictStep (predictStep s n dealer).2 n dealer = predictStep s n dealer :=
  ⟨rfl, rfl⟩

/-- Counterexample for C2: with decay `1/2`, dealer `"A"` observed once is a
key of the dealer table, but after 20 further spins its decayed weight
`(1/2)^20` falls below `1e-6`, its table is pruned empty, and `_apply_decay`
deletes the dealer key — the key set is not monotone. -/
theorem C2_counterexample :
    (dzwFind sDealer.dealerZoneWeights dealerA).isSome = true ∧
    dzwFind sDealerGone.dealerZoneWeights dealerA = none := by
  decide

/-- Counterexample for C3: recording a spin for dealer `"A"` decays dealer
`"B"`'s zone table (weight `1` becomes `1/2`), so B's table is not left
unchanged. -/
theorem C3_counterexample :
    dzwFind sB1.dealerZoneWeights dealerB = some [(1, 1)] ∧
    dzwFind sB2.dealerZoneWeights dealerB = some [(1, 1 / 2)] ∧
    dzwFind sB2.dealerZoneWeights dealerB ≠ dzwFind sB1.dealerZoneWeights dealerB := by
  decide

theorem add_spin_dealerZoneWeights (s : Predictor) (num : ℕ) (dlr : Option String) :
    (add_spin s num dlr).dealerZoneWeights =
      match find_zone num, dlr with
      | some z, some dname =>
        if dname = "" then dzwDecay s.decay s.dealerZoneWeights
        else dzwIncr (dzwDecay s.decay s.dealerZoneWeights) dname z
      | _, _ => dzwDecay s.decay s.dealerZoneWeights :=
  rfl

theorem tblDecay_ne_nil_of_surv {K : Type} (d : ℚ) (t : List (K × ℚ))
    (h : ∃ e ∈ t, pruneEpsilon ≤ e.2 * d) : tblDecay d t ≠ [] := by
  induction t with
  | nil =>
    rcases h with ⟨e, he, _⟩
    cases he
  | cons q t ih =>
    rcases h with ⟨e, he, hs⟩
    rcases List.mem_cons.mp he with rfl | he2
    · rw [tblDecay, if_neg (not_lt.mpr hs)]
      exact List.cons_ne_nil _ _
    · by_cases hcut : q.2 * d < pruneEpsilon
      · rw [tblDecay, if_pos hcut]
        exact ih ⟨e, he2, hs⟩
      · rw [tblDecay, if_neg hcut]
        exact List.cons_ne_nil _ _

theorem dzwFind_decay_of_surv (d : ℚ) (m : List (String × List (ℕ × ℚ))) (B : String)
    (t : List (ℕ × ℚ)) (hf : dzwFind m B = some t) (hne : tblDecay d t ≠ []) :
    dzwFind (dzwDecay d m) B = some (tblDecay d t) := by
  induction m with
  | nil => cases hf
  | cons q m ih =>
    by_cases hq : q.1 = B
    · rw [dzwFind, if_pos hq] at hf
      injection hf with hf
      rw [dzwDecay, if_neg (hf ▸ hne), dzwFind, if_pos hq, hf]
    · rw [dzwFind, if_neg hq] at hf
      by_cases hcut : tblDecay d q.2 = []
      · rw [dzwDecay, if_pos hcut]
        exact ih hf
      · rw [dzwDecay, if_neg hcut, dzwFind, if_neg hq]
        exact ih hf

theorem dzwFind_incr_isSome (m : List (String × List (ℕ × ℚ))) (dn : String) (z : ℕ)
    (B : String) (h : (dzwFind m B).isSome = true) :
    (dzwFind (dzwIncr m dn z) B).isSome = true := by
  induction m with
  | nil => simp [dzwFind] at h
  | cons q m ih =>
    by_cases hd : q.1 = dn
    · rw [dzwIncr, if_pos hd]
      by_cases hq : q.1 = B
      · rw [dzwFind, if_pos hq]
        rfl
      · rw [dzwFind, if_neg hq]
        rw [dzwFind, if_neg hq] at h
        exact h
    · rw [dzwIncr, if_neg hd]
      by_cases hq : q.1 = B
      · rw [dzwFind, if_pos hq]
        rfl
      · rw [dzwFind, if_neg hq]
        rw [dzwFind, if_neg hq] at h
        exact ih h

/-- C2 (amended): a dealer's key can only disappear when its zone table is
pruned empty by decay.  If dealer `B`'s table holds any entry whose decayed
weight still clears the pruning threshold, then `B` is still a key of the
dealer mapping after any `add_spin` call — only full pruning removes a dealer. -/
theorem C2_dealer_key_persistence (s : Predictor) (num : ℕ) (dlr : Option String)
    (B : String) (t : List (ℕ × ℚ))
    (hB : dzwFind s.dealerZoneWeights B = some t)
    (hsurv : ∃ e ∈ t, pruneEpsilon ≤ e.2 * s.decay) :
    ∃ t2, dzwFind (add_spin s num dlr).dealerZoneWeights B = some t2 := by
  have hne := tblDecay_ne_nil_of_surv s.decay t hsurv
  have hD := dzwFind_decay_of_surv s.decay s.dealerZoneWeights B t hB hne
  rw [add_spin_dealerZoneWeights]
  cases hz : find_zone num with
  | none => exact ⟨_, hD⟩
  | some z =>
    cases dlr with
    | none => exact ⟨_, hD⟩
    | some dname =>
      show ∃ t2, dzwFind (if dname = "" then dzwDecay s.decay s.dealerZoneWeights
        else dzwIncr (dzwDecay s.decay s.dealerZoneWeights) dname z) B = some t2
      by_cases he : dname = ""
      · rw [if_pos he]
        exact ⟨_, hD⟩
      · rw [if_neg he]
        have hsome := dzwFind_incr_isSome (dzwDecay s.decay s.dealerZoneWeights) dname z B
          (by rw [hD]; rfl)
        exact Option.isSome_iff_exists.mp hsome

/-- Witness for C2 (amended): dealer `"B"` with table entry of weight `1` and
decay `1/2` survives a further dealerless spin. -/
theorem C2_witness :
    ∃ t2, dzwFind (add_spin sB1 5 none).dealerZoneWeights dealerB = some t2 :=
  C2_dealer_key_persistence sB1 5 none dealerB [(1, 1)] (by decide)
    ⟨(1, 1), by decide, by decide⟩

theorem dzwFind_eq_none_of_not_mem (m : List (String × List (ℕ × ℚ))) (B : String)
    (h : B ∉ dzwKeys m) : dzwFind m B = none := by
  induction m with
  | nil => rfl
  | cons q m ih =>
    rw [dzwKeys, List.map_cons, List.mem_cons] at h
    push_neg at h
    have hq : ¬ q.1 = B := fun hc => h.1 hc.symm
    rw [dzwFind, if_neg hq]
    exact ih h.2

theorem dzwFind_decay_none (d : ℚ) (m : List (String × List (ℕ × ℚ))) (B : String)
    (h : dzwFind m B = none) : dzwFind (dzwDecay d m) B = none := by
  induction m with
  | nil => rfl
  | cons q m ih =>
    by_cases hq : q.1 = B
    · rw [dzwFind, if_pos hq] at h
      cases h
    · rw [dzwFind, if_neg hq] at h
      by_cases hcut : tblDecay d q.2 = []
      · rw [dzwDecay, if_pos hcut]
        exact ih h
      · rw [dzwDecay, if_neg hcut, dzwFind, if_neg hq]
        exact ih h

theorem dzwFind_decay_nodup (d : ℚ) (m : List (String × List (ℕ × ℚ))) (B : String)
    (hN : (dzwKeys m).Nodup) :
    dzwFind (dzwDecay d m) B =
      match dzwFind m B with
      | none => none
      | some t => if tblDecay d t = [] then none else some (tblDecay d t) := by
  induction m with
  | nil => rfl
  | cons q m ih =>
    rw [dzwKeys, List.map_cons, List.nodup_cons] at hN
    obtain ⟨hhead, htail⟩ := hN
    by_cases hq : q.1 = B
    · rw [dzwFind, if_pos hq]
      by_cases hcut : tblDecay d q.2 = []
      · show dzwFind (dzwDecay d (q :: m)) B = if tblDecay d q.2 = [] then none
          else some (tblDecay d q.2)
        rw [if_pos hcut, dzwDecay, if_pos hcut]
        exact dzwFind_decay_none d m B
          (dzwFind_eq_none_of_not_mem m B (hq ▸ hhead))
      · show dzwFind (dzwDecay d (q :: m)) B = if tblDecay d q.2 = [] then none
          else some (tblDecay d q.2)
        rw [if_neg hcut, dzwDecay, if_neg hcut, dzwFind, if_pos hq]
    · rw [dzwFind, if_neg hq]
      by_cases hcut : tblDecay d q.2 = []
      · rw [dzwDecay, if_pos hcut]
        exact ih htail
      · rw [dzwDecay, if_neg hcut, dzwFind, if_neg hq]
        exact ih htail

theorem dzwFind_incr_ne (m : List (String × List (ℕ × ℚ))) (dn : String) (z : ℕ)
    (B : String) (h : B ≠ dn) :
    dzwFind (dzwIncr m dn z) B = dzwFind m B := by
  induction m with
  | nil =>
    have hd : ¬ dn = B := fun hc => h hc.symm
    simp [dzwIncr, dzwFind, hd]
  | cons q m ih =>
    by_cases hd : q.1 = dn
    · have hq : ¬ q.1 = B := fun hc => h (by rw [← hc, hd])
      rw [dzwIncr, if_pos hd, dzwFind, if_neg hq, dzwFind, if_neg hq]
    · rw [dzwIncr, if_neg hd]
      by_cases hq : q.1 = B
      · rw [dzwFind, if_pos hq, dzwFind, if_pos hq]
      · rw [dzwFind, if_neg hq, dzwFind, if_neg hq]
        exact ih

/-- C3 (amended): recording a spin for dealer `A` changes dealer `B`'s table
(`B ≠ A`) only through the shared decay step — `B`'s binding becomes its
decayed table, removed exactly when that decayed table is empty, and receives
no increment; and `predict_next_top_n` with `dealer = None` reads no
dealer-zone table: its result is unchanged under any replacement of the whole
dealer mapping. -/
theorem C3_dealer_frame (s : Predictor) (num : ℕ) (A B : String) (n : ℕ)
    (m m2 : List (String × List (ℕ × ℚ)))
    (hN : (dzwKeys s.dealerZoneWeights).Nodup) (hBA : B ≠ A) :
    dzwFind (add_spin s num (some A)).dealerZoneWeights B =
      (match dzwFind s.dealerZoneWeights B with
       | none => none
       | some t => if tblDecay s.decay t = [] then none
                   else some (tblDecay s.decay t)) ∧
    predict_next_top_n { s with dealerZoneWeights := m } n none =
      predict_next_top_n { s with dealerZoneWeights := m2 } n none := by
  constructor
  · rw [add_spin_dealerZoneWeights]
    cases hz : find_zone num with
    | none => exact dzwFind_decay_nodup s.decay s.dealerZoneWeights B hN
    | some z =>
      show dzwFind (if A = "" then dzwDecay s.decay s.dealerZoneWeights
          else dzwIncr (dzwDecay s.decay s.dealerZoneWeights) A z) B = _
      by_cases he : A = ""
      · rw [if_pos he]
        exact dzwFind_decay_nodup s.decay s.dealerZoneWeights B hN
      · rw [if_neg he, dzwFind_incr_ne _ _ _ _ hBA]
        exact dzwFind_decay_nodup s.decay s.dealerZoneWeights B hN
  · rfl

/-- Witness for C3 (amended) at the concrete state `sB1` (dealer `"B"`
recorded once, decay `1/2`), spin for dealer `"A"`. -/
theorem C3_witness :
    dzwFind (add_spin sB1 5 (some dealerA)).dealerZoneWeights dealerB =
      (match dzwFind sB1.dealerZoneWeights dealerB with
       | none => none
       | some t => if tblDecay sB1.decay t = [] then none
                   else some (tblDecay sB1.decay t)) ∧
    predict_next_top_n { sB1 with dealerZoneWeights := [] } 3 none =
      predict_next_top_n { sB1 with dealerZoneWeights := [(dealerX, [(2, 5)])] } 3 none :=
  C3_dealer_frame sB1 5 dealerA dealerB 3 [] [(dealerX, [(2, 5)])] (by decide) (by decide)

theorem tblDecay_spec {K : Type} (d : ℚ) (t : List (K × ℚ)) :
    decayTableSpec d t (tblDecay d t) := by
  induction t with
  | nil =>
    intro k w h
    cases h
  | cons q t ih =>
    intro k w h
    by_cases hcut : q.2 * d < pruneEpsilon
    · rw [tblDecay, if_pos hcut] at h
      rcases ih k w h with ⟨⟨w0, hm, he⟩, hge⟩
      exact ⟨⟨w0, List.mem_cons_of_mem _ hm, he⟩, hge⟩
    · rw [tblDecay, if_neg hcut] at h
      rcases List.mem_cons.mp h with heq | hmem
      · injection heq with h1 h2
        subst h1
        subst h2
        exact ⟨⟨q.2, List.mem_cons_self _ _, rfl⟩, not_lt.mp hcut⟩
      · rcases ih k w hmem with ⟨⟨w0, hm, he⟩, hge⟩
        exact ⟨⟨w0, List.mem_cons_of_mem _ hm, he⟩, hge⟩

theorem dzwDecay_mem (d : ℚ) (m : List (String × List (ℕ × ℚ))) (dB : String)
    (tB : List (ℕ × ℚ)) (h : (dB, tB) ∈ dzwDecay d m) :
    ∃ t0, (dB, t0) ∈ m ∧ tB = tblDecay d t0 := by
  induction m with
  | nil => cases h
  | cons q m ih =>
    by_cases hcut : tblDecay d q.2 = []
    · rw [dzwDecay, if_pos hcut] at h
      rcases ih h with ⟨t0, hm, he⟩
      exact ⟨t0, List.mem_cons_of_mem _ hm, he⟩
    · rw [dzwDecay, if_neg hcut] at h
      rcases List.mem_cons.mp h with heq | hmem
      · injection heq with h1 h2
        subst h1
        exact ⟨q.2, List.mem_cons_self _ _, h2⟩
      · rcases ih hmem with ⟨t0, hm, he⟩
        exact ⟨t0, List.mem_cons_of_mem _ hm, he⟩

/-- C4: the decay pass performed at the start of every `add_spin` satisfies,
on every owned table (both distance tables, numbers, colors, zones and every
dealer-zone table), the contract: every surviving entry's weight is its
pre-decay weight multiplied by the decay factor, and no surviving entry's
weight is below the prune epsilon `1e-6`. -/
theorem C4_decay_step (s : Predictor) :
    decayTableSpec s.decay s.distClockwise (applyDecay s).distClockwise ∧
    decayTableSpec s.decay s.distAnticlockwise (applyDecay s).distAnticlockwise ∧
    decayTableSpec s.decay s.numberWeights (applyDecay s).numberWeights ∧
    decayTableSpec s.decay s.colorWeights (applyDecay s).colorWeights ∧
    decayTableSpec s.decay s.zoneWeights (applyDecay s).zoneWeights ∧
    ∀ dB tB, (dB, tB) ∈ (applyDecay s).dealerZoneWeights →
      ∃ t0, (dB, t0) ∈ s.dealerZoneWeights ∧ decayTableSpec s.decay t0 tB := by
  refine ⟨tblDecay_spec _ _, tblDecay_spec _ _, tblDecay_spec _ _, tblDecay_spec _ _,
    tblDecay_spec _ _, ?_⟩
  intro dB tB h
  rcases dzwDecay_mem s.decay s.dealerZoneWeights dB tB h with ⟨t0, hm, he⟩
  exact ⟨t0, hm, he ▸ tblDecay_spec _ _⟩

/-- Witness for C4 at the state `sEx` (decay `9/10`, position 17 weighted
`9/10`): the decayed number table holds `17 ↦ 81/100 = (9/10) * (9/10)`. -/
theorem C4_witness :
    (∃ w0, ((17 : ℕ), w0) ∈ sEx.numberWeights ∧ (81 / 100 : ℚ) = w0 * sEx.decay) ∧
      pruneEpsilon ≤ (81 / 100 : ℚ) :=
  (C4_decay_step sEx).2.2.1 17 (81 / 100) (by decide)

theorem most_common_length {K : Type} (t : List (K × ℚ)) (n : ℕ) :
    (most_common t n).length ≤ n := by
  rw [most_common]
  exact List.length_take_le n _

theorem wheel_getD_le (i : ℕ) (h : i < 37) : wheel_sequence.getD i 0 ≤ 36 := by
  have hall : ∀ j, j < 37 → wheel_sequence.getD j 0 ≤ 36 := by decide
  exact hall i h

/-- C10: whenever `predict_next_top_n` returns a report, every candidate
number of the distance-based prediction list is a wheel position in `[0,36]`
(the projected slot index is reduced mod 37 before indexing the 37-slot
ordering), and the list holds at most `n` entries. -/
theorem C10_candidates_valid (s : Predictor) (n : ℕ) (dealer : Option String)
    (sn : ℕ) (dir : Direction) (dp : List (ℕ × ℕ × ℚ)) (hn : List (ℕ × ℚ)) (hnt : ℚ)
    (hc : List (Color × ℚ)) (hz : List (ℕ × ℚ)) (tz : ℚ) (dzi : Option (List (ℕ × ℚ)))
    (h : predict_next_top_n s n dealer =
      PredictResult.report sn dir dp hn hnt hc hz tz dzi) :
    (∀ c ∈ dp, c.1 ≤ 36) ∧ dp.length ≤ n := by
  have hlen : ((wheel_sequence.length : ℕ) : ℤ) = 37 := by norm_num [wheel_sequence]
  simp only [predict_next_top_n] at h
  split at h
  · exact absurd h (by simp)
  · split at h
    · exact absurd h (by simp)
    · injection h with h1 h2 h3 h4 h5 h6 h7 h8 h9
      subst h3
      constructor
      · intro c hcmem
        rcases List.mem_map.mp hcmem with ⟨q, hq, rfl⟩
        cases hdir : get_spin_direction (s.spins.length + 1) <;>
          · simp only [hdir, hlen]
            exact wheel_getD_le _ (by omega)
      · rw [List.length_map]
        exact most_common_length _ n

/-- Witness for C10 at the successful prediction of `statePredictor3`. -/
theorem C10_witness :
    (∀ c ∈ [((19 : ℕ), (36 : ℕ), (1 : ℚ))], c.1 ≤ 36) ∧
      ([((19 : ℕ), (36 : ℕ), (1 : ℚ))] : List (ℕ × ℕ × ℚ)).length ≤ 15 :=
  C10_candidates_valid statePredictor3 15 none 4 Direction.anticlockwise
    [(19, 36, 1)] [(0, 1), (32, 1), (15, 1)] 3
    [(Color.green, 1 / 3), (Color.red, 1 / 3), (Color.black, 1 / 3)]
    [(1, 3)] 3 none (by decide)
end Roulette
